import Mathlib

/-!
Verification of the core of `mopidy_dleyna/dleyna.py`: the `dLeynaFuture`
bridge (a `pykka.ThreadingFuture` subclass) and the `dLeynaServers` peer
registry, plus the `dLeynaClient` facade operations built on them.

The registry is embedded as a Python dict keyed by UDN: a list of records
whose keys are pairwise distinct, where assignment replaces the first entry
with the same key in place and otherwise appends (insertion order), and
deletion removes the entry with the key.  Futures are embedded as a state
machine; since the interesting claims are about when a transform attached
with `apply` runs, reads thread an explicit counter of transform
invocations, and transforms receive the current counter so that an impure
transform can be expressed.
-/

set_option autoImplicit false

/-- Python-level errors that the embedded code can raise or store in a
future: `KeyError` from dict lookup/deletion, and a D-Bus error delivered
to an `error_handler` callback. -/
inductive PyErr where
  | keyError (key : String)
  | dbusError (msg : String)
deriving DecidableEq, Repr

/-- A media-server record as delivered by the `GetAll` properties call in
`__found_server`: the dict with at least `UDN`, `Path` and `FriendlyName`
keys, plus the remaining properties. -/
structure PeerRecord where
  udn : String
  path : String
  friendlyName : String
  props : List (String × String)
deriving DecidableEq, Repr

/-- Logging levels used by `dleyna.py` (`logger.info`, `logger.warn`, ...). -/
inductive LogLevel where
  | debug
  | info
  | warn
  | error
deriving DecidableEq, Repr

/-- One emitted log line: its level and rendered message. -/
structure LogEntry where
  level : LogLevel
  msg : String
deriving DecidableEq, Repr

/-- Rendering of a `PyErr` for interpolation into a log message. -/
def PyErr.render : PyErr → String
  | .keyError k => "KeyError: " ++ k
  | .dbusError m => m

/-! ### The Python dict, specialised to `UDN ↦ PeerRecord`

`dLeynaServers.__servers` is a dict whose key is always the stored record's
own `UDN` (`self.__servers[obj['UDN']] = obj`), so the dict is embedded as
a list of records with pairwise-distinct `udn` fields, in insertion
order. -/

/-- `self.__servers[key]`: first record whose `udn` equals the key
(unique, by the nodup-keys invariant). -/
def lookup : List PeerRecord → String → Option PeerRecord
  | [], _ => none
  | r :: rs, u => if r.udn = u then some r else lookup rs u

/-- `key in self.__servers` as a Bool. -/
def present (reg : List PeerRecord) (u : String) : Bool :=
  (lookup reg u).isSome

/-- `self.__servers[obj['UDN']] = obj`: replace the first entry with the
same key in place, else append at the end (Python dict assignment). -/
def dictInsert : List PeerRecord → PeerRecord → List PeerRecord
  | [], obj => [obj]
  | r :: rs, obj => if r.udn = obj.udn then obj :: rs else r :: dictInsert rs obj

/-- `del self.__servers[u]`: drop the (unique) entry with key `u`. -/
def dictErase : List PeerRecord → String → List PeerRecord
  | [], _ => []
  | r :: rs, u => if r.udn = u then rs else r :: dictErase rs u

/-- The linear scan of `__lost_server`:
`for udn, obj in servers: if obj['Path'] == path: ...` — first record whose
`Path` equals the notified path. -/
def findByPath : List PeerRecord → String → Option PeerRecord
  | [], _ => none
  | r :: rs, p => if r.path = p then some r else findByPath rs p

/-! ### Registry operations, from `dLeynaServers` -/

/-- `__log_server_action(action, obj)`: the info line
`'%s digital media server %s: %s [%s]' % (action, Path, FriendlyName, UDN)`. -/
def logServerAction (action : String) (obj : PeerRecord) : LogEntry :=
  ⟨.info, action ++ " digital media server " ++ obj.path ++ ": "
      ++ obj.friendlyName ++ " [" ++ obj.udn ++ "]"⟩

/-- `__add_server(obj)`: store under `obj['UDN']`, then log `Found`. -/
def addServer (reg : List PeerRecord) (obj : PeerRecord) :
    List PeerRecord × List LogEntry :=
  (dictInsert reg obj, [logServerAction "Found" obj])

/-- `__remove_server(obj)`: delete the entry under `obj['UDN']`, then log
`Lost`.  (At its only call site, inside `__lost_server`, `obj` was just
found in the dict, so the deletion cannot raise `KeyError`.) -/
def removeServer (reg : List PeerRecord) (obj : PeerRecord) :
    List PeerRecord × List LogEntry :=
  (dictErase reg obj.udn, [logServerAction "Lost" obj])

/-- `__found_server(path)` together with the completion of its `GetAll`
properties call: on success (`reply_handler`) the record is added; on
failure (`error_handler`) a warning is logged and nothing else happens. -/
def foundServer (reg : List PeerRecord) (path : String) :
    Except PyErr PeerRecord → List PeerRecord × List LogEntry
  | .ok obj => addServer reg obj
  | .error e =>
      (reg, [⟨.warn, "Cannot access media server " ++ path ++ ": " ++ e.render⟩])

/-- `__lost_server(path)`: scan the current records for the first one whose
`Path` equals `path`; if found, remove it by its `UDN`; otherwise log
informationally and do nothing. -/
def lostServer (reg : List PeerRecord) (path : String) :
    List PeerRecord × List LogEntry :=
  match findByPath reg path with
  | some obj => removeServer reg obj
  | none => (reg, [⟨.info, "Lost digital media server " ++ path⟩])

instance exceptFetchDecEq : DecidableEq (Except PyErr PeerRecord)
  | .ok x, .ok y =>
      if h : x = y then .isTrue (h ▸ rfl)
      else .isFalse (fun c => h (Except.ok.inj c))
  | .error x, .error y =>
      if h : x = y then .isTrue (h ▸ rfl)
      else .isFalse (fun c => h (Except.error.inj c))
  | .ok _, .error _ => .isFalse Except.noConfusion
  | .error _, .ok _ => .isFalse Except.noConfusion

/-- A notification processed by the registry: a `FoundServer` signal whose
follow-up property fetch completed with the given outcome, or a
`LostServer` signal. -/
inductive Event where
  | found (path : String) (fetch : Except PyErr PeerRecord)
  | lost (path : String)
deriving DecidableEq, Repr

/-- Dispatch one notification to the registry. -/
def stepEvent (reg : List PeerRecord) : Event → List PeerRecord × List LogEntry
  | .found p f => foundServer reg p f
  | .lost p => lostServer reg p

/-- The registry contents after processing a sequence of notifications,
starting from the empty dict of a fresh `dLeynaServers`. -/
def runReg (es : List Event) : List PeerRecord :=
  es.foldl (fun reg e => (stepEvent reg e).1) []

/-- The `Path` stored for a UDN, if present (`self.__servers[u]['Path']`). -/
def storedPath (reg : List PeerRecord) (u : String) : Option String :=
  (lookup reg u).map (fun r => r.path)

/-! ### The future bridge

`dLeynaFuture` extends `pykka.ThreadingFuture`.  pykka itself is an
external dependency, so its base-class behaviour is not in this
repository's sources; the base future below is modelled from the spec
(single-resolution cell; `get` blocks until resolved or the timeout
elapses, returning the stored value, re-raising the stored error, or
raising a distinct timeout error), while `apply`, `fromvalue` and the
facade methods are translated from `dleyna.py`. -/

/-- Modelled from the spec: the resolution state of a base
`pykka.ThreadingFuture` (pykka is not part of this repository's sources):
pending, resolved with a value by `set`, or failed with an error by
`set_exception`. -/
inductive FState (α : Type) where
  | pending
  | resolved (v : α)
  | failed (e : PyErr)

/-- Modelled from the spec: `set(value)` resolves a pending future;
calling it on an already-settled future is forbidden by the contract, so
the model leaves a settled state unchanged. -/
def FState.set {α : Type} : FState α → α → FState α
  | .pending, v => .resolved v
  | s, _ => s

/-- A `dLeynaFuture`: either a base single-resolution cell, or a future
returned by `apply`, whose get hook reads the parent and applies the
stored transform.  A transform receives the current invocation counter so
that an impure Python callable (whose result may differ from call to
call) is expressible. -/
inductive Future (α : Type) where
  | base (st : FState α)
  | derived (parent : Future α) (f : Nat → α → α)

/-- The observable outcome of one `get(timeout)` call: the stored value,
the stored error re-raised, the distinct timeout error, or an unbounded
block (a `get` with no timeout on a future that is never resolved). -/
inductive GetResult (α : Type) where
  | value (v : α)
  | error (e : PyErr)
  | timeout
  | blocked

/-- `get(timeout)`, instrumented: alongside the outcome it threads a
counter of transform invocations, so that *when* an `apply` transform runs
is observable in the model.  A base pending future times out when a bound
is given and blocks otherwise; a derived future evaluates its get hook
`lambda timeout: func(self.get(timeout))`: it reads the parent with the
same timeout and, only on a value, invokes the transform (bumping the
counter); a parent error, timeout or block propagates unchanged. -/
def Future.getInstr {α : Type} : Future α → Option Nat → Nat → GetResult α × Nat
  | .base .pending, some _, n => (.timeout, n)
  | .base .pending, none, n => (.blocked, n)
  | .base (.resolved v), _, n => (.value v, n)
  | .base (.failed e), _, n => (.error e, n)
  | .derived p f, t, n =>
      match p.getInstr t n with
      | (.value v, m) => (.value (f m v), m + 1)
      | r => r

/-- `set` on a future object (meaningful on base futures; a derived
future's reads go through its get hook regardless). -/
def Future.set {α : Type} : Future α → α → Future α
  | .base st, v => .base (st.set v)
  | f, _ => f

/-- `dLeynaFuture.apply(func)`: build the derived future whose get hook is
`lambda timeout: func(self.get(timeout))`.  Nothing is invoked here. -/
def Future.apply {α : Type} (self : Future α) (f : Nat → α → α) : Future α :=
  .derived self f

/-- `dLeynaFuture.apply(func)` with the invocation counter threaded
through the call itself, to state that `apply` performs no transform
invocation at call time. -/
def Future.applyW {α : Type} (self : Future α) (f : Nat → α → α) (n : Nat) :
    Future α × Nat :=
  (self.apply f, n)

/-- `dLeynaFuture.fromvalue(value)`: `future = cls(); future.set(value)`. -/
def Future.fromvalue {α : Type} (v : α) : Future α :=
  (Future.base FState.pending).set v

/-! ### The facade, from `dLeynaClient` -/

/-- `dLeynaServers.__getitem__(key)`: `self.__servers[key]`, which raises
`KeyError` when the key is absent. -/
def serversGetItem (reg : List PeerRecord) (key : String) :
    Except PyErr PeerRecord :=
  match lookup reg key with
  | some r => .ok r
  | none => .error (.keyError key)

/-- `self.__servers.values()`: the records in dict order. -/
def serversValues (reg : List PeerRecord) : List PeerRecord :=
  reg

/-- `dLeynaClient.server(udn)`:
`return dLeynaFuture.fromvalue(self.__servers[udn])` — the registry read
happens synchronously, so an absent key raises `KeyError` at the call site
instead of producing a future. -/
def dLeynaClient.server (reg : List PeerRecord) (udn : String) :
    Except PyErr (Future PeerRecord) :=
  match serversGetItem reg udn with
  | .ok r => .ok (Future.fromvalue r)
  | .error e => .error e

/-- `dLeynaClient.servers()`:
`return dLeynaFuture.fromvalue(self.__servers.values())`. -/
def dLeynaClient.servers (reg : List PeerRecord) : Future (List PeerRecord) :=
  Future.fromvalue (serversValues reg)

/-! ### The spec's presence characterisation (claim C1)

The claim characterises presence in the registry after a sequence of
notifications: a peer is present iff some successful appearance of it was
processed and no later disappearance matched the peer's stored address at
the time that disappearance was processed. -/

/-- Event `i` of the sequence is an appearance of peer `u` whose property
fetch succeeded. -/
def appearsAt (es : List Event) (i : Nat) (u : String) : Bool :=
  match es[i]? with
  | some (.found _ (.ok obj)) => obj.udn = u
  | _ => false

/-- Event `j` of the sequence is a disappearance whose path equals the
address stored for peer `u` at the moment event `j` is processed (i.e. in
the registry built from the first `j` events). -/
def lostMatchesAt (es : List Event) (j : Nat) (u : String) : Bool :=
  match es[j]? with
  | some (.lost p) => storedPath (runReg (es.take j)) u = some p
  | _ => false

/-- The claim's characterisation: some successful appearance of `u` was
processed, and every later disappearance failed to match `u`'s stored
address at the time it was processed. -/
def SpecPresent (es : List Event) (u : String) : Prop :=
  ∃ i ∈ List.range es.length, appearsAt es i u = true ∧
    ∀ j ∈ List.range es.length, i < j → lostMatchesAt es j u = false

instance specPresentDec (es : List Event) (u : String) :
    Decidable (SpecPresent es u) := by
  unfold SpecPresent
  infer_instance

/-- The path carried by event `j`, when that event is a disappearance. -/
def lostPathAt (es : List Event) (j : Nat) : Option String :=
  match es[j]? with
  | some (.lost p) => some p
  | _ => none

/-- At each disappearance of the sequence, at most one record of the
registry at that moment carries the matching address (so the linear scan
of `__lost_server` is unambiguous). -/
def LostPathsUnique (es : List Event) : Prop :=
  ∀ j ∈ List.range es.length, ∀ p, lostPathAt es j = some p →
    ∀ r ∈ runReg (es.take j), ∀ r' ∈ runReg (es.take j),
      r.path = p → r'.path = p → r = r'

/-- Pairwise-distinct UDNs: the dict's keys are unique. -/
def KeysNodup (reg : List PeerRecord) : Prop :=
  reg.Pairwise (fun a b => a.udn ≠ b.udn)

/-! ### Lemmas about the dict operations -/

theorem lookup_mem {reg : List PeerRecord} {u : String} {r : PeerRecord}
    (h : lookup reg u = some r) : r ∈ reg ∧ r.udn = u := by
  induction reg with
  | nil => simp [lookup] at h
  | cons a rs ih =>
      by_cases ha : a.udn = u
      · simp [lookup, ha] at h
        subst h
        exact ⟨List.mem_cons_self a rs, ha⟩
      · simp [lookup, ha] at h
        rcases ih h with ⟨hm, hu⟩
        exact ⟨List.mem_cons_of_mem a hm, hu⟩

theorem lookup_eq_none {reg : List PeerRecord} {u : String}
    (h : ∀ r ∈ reg, r.udn ≠ u) : lookup reg u = none := by
  induction reg with
  | nil => rfl
  | cons a rs ih =>
      have ha : a.udn ≠ u := h a (List.mem_cons_self a rs)
      simp only [lookup, if_neg ha]
      exact ih (fun r hr => h r (List.mem_cons_of_mem a hr))

theorem mem_lookup_of_nodup {reg : List PeerRecord} {r : PeerRecord}
    (hnd : KeysNodup reg) (hr : r ∈ reg) : lookup reg r.udn = some r := by
  induction reg with
  | nil => cases hr
  | cons a rs ih =>
      rcases List.mem_cons.mp hr with rfl | hmem
      · simp [lookup]
      · have hne : a.udn ≠ r.udn :=
          (List.pairwise_cons.mp hnd).1 r hmem
        simp only [lookup, if_neg hne]
        exact ih (List.pairwise_cons.mp hnd).2 hmem

theorem lookup_dictInsert (reg : List PeerRecord) (obj : PeerRecord)
    (u : String) :
    lookup (dictInsert reg obj) u =
      if obj.udn = u then some obj else lookup reg u := by
  induction reg with
  | nil => simp [dictInsert, lookup]
  | cons a rs ih =>
      by_cases ha : a.udn = obj.udn
      · simp only [dictInsert, if_pos ha, lookup]
        by_cases hu : obj.udn = u
        · rw [if_pos hu, if_pos hu]
        · have hau : ¬ a.udn = u := fun c => hu (ha.symm.trans c)
          rw [if_neg hu, if_neg hu, if_neg hau]
      · simp only [dictInsert, if_neg ha, lookup]
        by_cases hau : a.udn = u
        · have hu : ¬ obj.udn = u := fun c => ha (hau.trans c.symm)
          rw [if_pos hau, if_neg hu, if_pos hau]
        · rw [if_neg hau, ih]
          by_cases hu : obj.udn = u
          · rw [if_pos hu, if_pos hu]
          · rw [if_neg hu, if_neg hu, if_neg hau]

theorem length_dictInsert_of_present {reg : List PeerRecord}
    {obj : PeerRecord} (h : present reg obj.udn = true) :
    (dictInsert reg obj).length = reg.length := by
  induction reg with
  | nil => simp [present, lookup] at h
  | cons a rs ih =>
      by_cases ha : a.udn = obj.udn
      · simp [dictInsert, if_pos ha]
      · have h' : present rs obj.udn = true := by
          simpa [present, lookup, if_neg ha] using h
        simp [dictInsert, if_neg ha, ih h']

theorem lookup_dictErase_ne {reg : List PeerRecord} {k u : String}
    (h : u ≠ k) : lookup (dictErase reg k) u = lookup reg u := by
  induction reg with
  | nil => rfl
  | cons a rs ih =>
      by_cases ha : a.udn = k
      · have hau : ¬ a.udn = u := fun c => h (c.symm.trans ha)
        simp only [dictErase, if_pos ha, lookup, if_neg hau]
      · simp only [dictErase, if_neg ha, lookup]
        by_cases hau : a.udn = u
        · rw [if_pos hau, if_pos hau]
        · rw [if_neg hau, if_neg hau, ih]

theorem dictErase_sublist (reg : List PeerRecord) (k : String) :
    List.Sublist (dictErase reg k) reg := by
  induction reg with
  | nil => simp [dictErase]
  | cons a rs ih =>
      by_cases ha : a.udn = k
      · simp only [dictErase, if_pos ha]
        exact List.sublist_cons_self a rs
      · simp only [dictErase, if_neg ha]
        exact List.Sublist.cons₂ a ih

theorem keysNodup_dictErase {reg : List PeerRecord} {k : String}
    (h : KeysNodup reg) : KeysNodup (dictErase reg k) :=
  List.Pairwise.sublist (dictErase_sublist reg k) h

theorem lookup_dictErase_self {reg : List PeerRecord} {k : String}
    (hnd : KeysNodup reg) : lookup (dictErase reg k) k = none := by
  induction reg with
  | nil => rfl
  | cons a rs ih =>
      by_cases ha : a.udn = k
      · simp only [dictErase, if_pos ha]
        refine lookup_eq_none (fun r hr => ?_)
        have := (List.pairwise_cons.mp hnd).1 r hr
        rw [ha] at this
        exact fun c => this c.symm
      · simp only [dictErase, if_neg ha, lookup, if_neg ha]
        exact ih (List.pairwise_cons.mp hnd).2

theorem mem_dictInsert {reg : List PeerRecord} {obj b : PeerRecord}
    (h : b ∈ dictInsert reg obj) : b = obj ∨ b ∈ reg := by
  induction reg with
  | nil => simpa [dictInsert] using h
  | cons a rs ih =>
      by_cases ha : a.udn = obj.udn
      · rcases List.mem_cons.mp (by simpa [dictInsert, if_pos ha] using h) with
          rfl | hb
        · exact Or.inl rfl
        · exact Or.inr (List.mem_cons_of_mem a hb)
      · rcases List.mem_cons.mp (by simpa [dictInsert, if_neg ha] using h) with
          hba | hb
        · exact Or.inr (by rw [hba]; exact List.mem_cons_self a rs)
        · rcases ih hb with hb' | hb'
          · exact Or.inl hb'
          · exact Or.inr (List.mem_cons_of_mem a hb')

theorem keysNodup_dictInsert {reg : List PeerRecord} {obj : PeerRecord}
    (h : KeysNodup reg) : KeysNodup (dictInsert reg obj) := by
  induction reg with
  | nil => simp [dictInsert, KeysNodup]
  | cons a rs ih =>
      rcases List.pairwise_cons.mp h with ⟨hhead, htail⟩
      by_cases ha : a.udn = obj.udn
      · simp only [dictInsert, if_pos ha]
        refine List.pairwise_cons.mpr ⟨fun b hb => ?_, htail⟩
        have := hhead b hb
        rw [ha] at this
        exact this
      · simp only [dictInsert, if_neg ha]
        refine List.pairwise_cons.mpr ⟨fun b hb => ?_, ih htail⟩
        rcases mem_dictInsert hb with rfl | hb'
        · exact ha
        · exact hhead b hb'

theorem findByPath_some {reg : List PeerRecord} {p : String}
    {r : PeerRecord} (h : findByPath reg p = some r) :
    r ∈ reg ∧ r.path = p := by
  induction reg with
  | nil => simp [findByPath] at h
  | cons a rs ih =>
      by_cases ha : a.path = p
      · simp [findByPath, if_pos ha] at h
        subst h
        exact ⟨List.mem_cons_self a rs, ha⟩
      · simp [findByPath, if_neg ha] at h
        rcases ih h with ⟨hm, hp⟩
        exact ⟨List.mem_cons_of_mem a hm, hp⟩

theorem findByPath_none {reg : List PeerRecord} {p : String}
    (h : findByPath reg p = none) : ∀ r ∈ reg, r.path ≠ p := by
  induction reg with
  | nil => intro r hr; cases hr
  | cons a rs ih =>
      by_cases ha : a.path = p
      · simp [findByPath, if_pos ha] at h
      · intro r hr
        rcases List.mem_cons.mp hr with rfl | hr'
        · exact ha
        · exact ih (by simpa [findByPath, if_neg ha] using h) r hr'

/-! ### Registry invariants and per-step presence lemmas -/

theorem keysNodup_stepEvent {reg : List PeerRecord} (h : KeysNodup reg)
    (e : Event) : KeysNodup (stepEvent reg e).1 := by
  cases e with
  | found p f =>
      cases f with
      | ok obj => exact keysNodup_dictInsert h
      | error err => exact h
  | lost p =>
      cases hf : findByPath reg p with
      | none =>
          simp only [stepEvent, lostServer, hf]
          exact h
      | some obj =>
          simp only [stepEvent, lostServer, hf, removeServer]
          exact keysNodup_dictErase h

theorem keysNodup_foldl (es : List Event) :
    ∀ reg : List PeerRecord, KeysNodup reg →
      KeysNodup (es.foldl (fun reg e => (stepEvent reg e).1) reg) := by
  induction es with
  | nil => intro reg h; exact h
  | cons e es ih => intro reg h; exact ih _ (keysNodup_stepEvent h e)

theorem keysNodup_runReg (es : List Event) : KeysNodup (runReg es) :=
  keysNodup_foldl es [] List.Pairwise.nil

theorem runReg_append (es : List Event) (e : Event) :
    runReg (es ++ [e]) = (stepEvent (runReg es) e).1 := by
  simp [runReg, List.foldl_append]

theorem present_dictInsert (reg : List PeerRecord) (obj : PeerRecord)
    (u : String) :
    present (dictInsert reg obj) u = true ↔
      (obj.udn = u ∨ present reg u = true) := by
  unfold present
  rw [lookup_dictInsert]
  by_cases hu : obj.udn = u
  · simp [hu]
  · simp [hu]

theorem present_lostServer (reg : List PeerRecord) (p u : String)
    (hnd : KeysNodup reg)
    (huniq : ∀ r ∈ reg, ∀ r' ∈ reg, r.path = p → r'.path = p → r = r') :
    present (lostServer reg p).1 u = true ↔
      (present reg u = true ∧ storedPath reg u ≠ some p) := by
  cases hf : findByPath reg p with
  | none =>
      have hnone := findByPath_none hf
      simp only [lostServer, hf]
      constructor
      · intro h
        refine ⟨h, ?_⟩
        intro hc
        cases hl : lookup reg u with
        | none => rw [storedPath, hl] at hc; simp at hc
        | some r =>
            rw [storedPath, hl] at hc
            simp at hc
            exact hnone r (lookup_mem hl).1 hc
      · intro h; exact h.1
  | some r0 =>
      rcases findByPath_some hf with ⟨hr0m, hr0p⟩
      simp only [lostServer, hf, removeServer]
      by_cases hu : u = r0.udn
      · subst hu
        have h1 : lookup (dictErase reg r0.udn) r0.udn = none :=
          lookup_dictErase_self hnd
        have h2 : lookup reg r0.udn = some r0 := mem_lookup_of_nodup hnd hr0m
        simp [present, h1, storedPath, h2, hr0p]
      · rw [show present (dictErase reg r0.udn) u =
              (lookup (dictErase reg r0.udn) u).isSome from rfl,
            lookup_dictErase_ne hu]
        cases hl : lookup reg u with
        | none => simp [present, hl, storedPath]
        | some r =>
            have hrp : r.path ≠ p := by
              intro hc
              have hrr0 : r = r0 :=
                huniq r (lookup_mem hl).1 r0 hr0m hc hr0p
              exact hu ((lookup_mem hl).2.symm.trans
                (congrArg PeerRecord.udn hrr0))
            simp [present, hl, storedPath, hrp]

/-! ### Transfer of the characterisation predicates across a snoc -/

theorem appearsAt_append_lt (es : List Event) (e : Event) {i : Nat}
    (h : i < es.length) (u : String) :
    appearsAt (es ++ [e]) i u = appearsAt es i u := by
  unfold appearsAt
  rw [List.getElem?_append, if_pos h]

theorem lostMatchesAt_append_lt (es : List Event) (e : Event) {j : Nat}
    (h : j < es.length) (u : String) :
    lostMatchesAt (es ++ [e]) j u = lostMatchesAt es j u := by
  unfold lostMatchesAt
  rw [List.getElem?_append, if_pos h,
    List.take_append_of_le_length (le_of_lt h)]

theorem lostPathAt_append_lt (es : List Event) (e : Event) {j : Nat}
    (h : j < es.length) :
    lostPathAt (es ++ [e]) j = lostPathAt es j := by
  unfold lostPathAt
  rw [List.getElem?_append, if_pos h]

theorem take_length_append (es : List Event) (e : Event) :
    (es ++ [e]).take es.length = es := by
  rw [List.take_append_of_le_length (le_refl es.length), List.take_length]

theorem lostPathsUnique_of_append {es : List Event} {e : Event}
    (h : LostPathsUnique (es ++ [e])) : LostPathsUnique es := by
  intro j hj p hp r hr r' hr' h1 h2
  have hj' : j < es.length := List.mem_range.mp hj
  have hmem : j ∈ List.range (es ++ [e]).length := by
    rw [List.mem_range, List.length_append]
    omega
  have hp' : lostPathAt (es ++ [e]) j = some p := by
    rw [lostPathAt_append_lt es e hj']
    exact hp
  have htake : (es ++ [e]).take j = es.take j :=
    List.take_append_of_le_length (le_of_lt hj')
  refine h j hmem p hp' r ?_ r' ?_ h1 h2
  · rw [htake]; exact hr
  · rw [htake]; exact hr'

theorem specPresent_append (es : List Event) (e : Event) (u : String) :
    SpecPresent (es ++ [e]) u ↔
      (appearsAt (es ++ [e]) es.length u = true ∨
        (SpecPresent es u ∧
          lostMatchesAt (es ++ [e]) es.length u = false)) := by
  unfold SpecPresent
  constructor
  · rintro ⟨i, hi, happ, hall⟩
    have hi' : i < es.length + 1 := by
      have := List.mem_range.mp hi
      simpa [List.length_append] using this
    rcases Nat.lt_succ_iff_lt_or_eq.mp hi' with hilt | hieq
    · right
      refine ⟨⟨i, List.mem_range.mpr hilt, ?_, ?_⟩, ?_⟩
      · rw [← appearsAt_append_lt es e hilt]
        exact happ
      · intro j hj hij
        have hjlt : j < es.length := List.mem_range.mp hj
        have hjm : j ∈ List.range (es ++ [e]).length := by
          rw [List.mem_range, List.length_append]
          omega
        rw [← lostMatchesAt_append_lt es e hjlt]
        exact hall j hjm hij
      · have hm : es.length ∈ List.range (es ++ [e]).length := by
          rw [List.mem_range, List.length_append, List.length_singleton]
          omega
        exact hall es.length hm hilt
    · left
      rw [← hieq]
      exact happ
  · rintro (h | ⟨⟨i, hi, happ, hall⟩, hlast⟩)
    · refine ⟨es.length, ?_, h, ?_⟩
      · rw [List.mem_range, List.length_append, List.length_singleton]
        omega
      · intro j hj hij
        have : j < es.length + 1 := by
          have := List.mem_range.mp hj
          simpa [List.length_append] using this
        omega
    · have hilt : i < es.length := List.mem_range.mp hi
      refine ⟨i, ?_, ?_, ?_⟩
      · rw [List.mem_range, List.length_append]
        omega
      · rw [appearsAt_append_lt es e hilt]
        exact happ
      · intro j hj hij
        have hj' : j < es.length + 1 := by
          have := List.mem_range.mp hj
          simpa [List.length_append] using this
        rcases Nat.lt_succ_iff_lt_or_eq.mp hj' with hjlt | hjeq
        · rw [lostMatchesAt_append_lt es e hjlt]
          exact hall j (List.mem_range.mpr hjlt) hij
        · rw [hjeq]
          exact hlast

/-- The heart of claim C1, amended: provided every disappearance matches
at most one stored record, a peer is present after processing a sequence
of notifications iff some successful appearance of it was processed with
no later disappearance matching its then-stored address. -/
theorem present_iff_specPresent (es : List Event) (u : String) :
    LostPathsUnique es →
    (present (runReg es) u = true ↔ SpecPresent es u) := by
  induction es using List.reverseRecOn with
  | nil =>
      intro _
      constructor
      · intro h; cases h
      · rintro ⟨i, hi, _, _⟩
        have h0 := List.mem_range.mp hi
        simp at h0
  | append_singleton es e ih =>
      intro h
      have hes : LostPathsUnique es := lostPathsUnique_of_append h
      rw [specPresent_append, runReg_append]
      cases e with
      | found p f =>
          cases f with
          | ok obj =>
              have happ : appearsAt (es ++ [Event.found p (Except.ok obj)])
                  es.length u = decide (obj.udn = u) := by
                unfold appearsAt
                rw [List.getElem?_concat_length]
              have hlost : lostMatchesAt (es ++ [Event.found p (Except.ok obj)])
                  es.length u = false := by
                unfold lostMatchesAt
                rw [List.getElem?_concat_length]
              rw [show (stepEvent (runReg es)
                    (Event.found p (Except.ok obj))).1 =
                  dictInsert (runReg es) obj from rfl,
                present_dictInsert, ih hes, happ, hlost]
              simp
          | error err =>
              have happ : appearsAt (es ++ [Event.found p (Except.error err)])
                  es.length u = false := by
                unfold appearsAt
                rw [List.getElem?_concat_length]
              have hlost : lostMatchesAt
                  (es ++ [Event.found p (Except.error err)])
                  es.length u = false := by
                unfold lostMatchesAt
                rw [List.getElem?_concat_length]
              rw [show (stepEvent (runReg es)
                    (Event.found p (Except.error err))).1 =
                  runReg es from rfl,
                ih hes, happ, hlost]
              simp
      | lost p =>
          have happ : appearsAt (es ++ [Event.lost p]) es.length u
              = false := by
            unfold appearsAt
            rw [List.getElem?_concat_length]
          have hlost : lostMatchesAt (es ++ [Event.lost p]) es.length u
              = decide (storedPath (runReg es) u = some p) := by
            unfold lostMatchesAt
            rw [List.getElem?_concat_length, take_length_append]
          have hm : es.length ∈ List.range (es ++ [Event.lost p]).length := by
            rw [List.mem_range, List.length_append, List.length_singleton]
            omega
          have hp : lostPathAt (es ++ [Event.lost p]) es.length = some p := by
            unfold lostPathAt
            rw [List.getElem?_concat_length]
          have huniq : ∀ r ∈ runReg es, ∀ r' ∈ runReg es,
              r.path = p → r'.path = p → r = r' := by
            intro r hr r' hr' h1 h2
            refine h es.length hm p hp r ?_ r' ?_ h1 h2
            · rw [take_length_append]; exact hr
            · rw [take_length_append]; exact hr'
          rw [show (stepEvent (runReg es) (Event.lost p)).1 =
              (lostServer (runReg es) p).1 from rfl,
            present_lostServer (runReg es) p u (keysNodup_runReg es) huniq,
            ih hes, happ, hlost]
          simp [decide_eq_false_iff_not]

theorem findByPath_eq_none {reg : List PeerRecord} {p : String}
    (h : ∀ r ∈ reg, r.path ≠ p) : findByPath reg p = none := by
  induction reg with
  | nil => rfl
  | cons a rs ih =>
      have ha : a.path ≠ p := h a (List.mem_cons_self a rs)
      simp only [findByPath, if_neg ha]
      exact ih (fun r hr => h r (List.mem_cons_of_mem a hr))

/-! ### Concrete fixtures for witnesses and counterexamples -/

/-- A peer with UDN `U1` at address `/p/1`. -/
def rec1 : PeerRecord := ⟨"U1", "/p/1", "Server One", []⟩

/-- A second peer with UDN `U2`, also at address `/p/1`. -/
def rec2 : PeerRecord := ⟨"U2", "/p/1", "Server Two", []⟩

/-- The peer `U2` at its own address `/p/2`. -/
def rec2b : PeerRecord := ⟨"U2", "/p/2", "Server Two", []⟩

/-- The peer `U1` re-announced at a new address `/p/3`. -/
def rec1b : PeerRecord := ⟨"U1", "/p/3", "Server One", []⟩

/-! ### The claims -/

/-- C1 counterexample: after appearances of `U1` and `U2` both reporting
stored address `/p/1` and then a disappearance of `/p/1`, the peer `U2` is
still present (the scan of `__lost_server` removes only the first match,
`U1`), although a disappearance matching `U2`'s stored address was
processed after its appearance — so the claimed iff fails on this
sequence. -/
theorem c1_counterexample :
    ¬ (present (runReg [Event.found "/p/1" (Except.ok rec1),
          Event.found "/p/1" (Except.ok rec2), Event.lost "/p/1"]) "U2"
            = true ↔
        SpecPresent [Event.found "/p/1" (Except.ok rec1),
          Event.found "/p/1" (Except.ok rec2), Event.lost "/p/1"] "U2") := by
  decide

/-- C1 (amended): for every notification sequence in which each
disappearance matches at most one stored record, the registry keys are
pairwise distinct (one record per UDN), and a peer is present iff some
appearance of it was processed with a successful property fetch and no
later disappearance matched its then-stored address. -/
theorem c1_registry_presence (es : List Event) (u : String)
    (h : LostPathsUnique es) :
    KeysNodup (runReg es) ∧
      (present (runReg es) u = true ↔ SpecPresent es u) :=
  ⟨keysNodup_runReg es, present_iff_specPresent es u h⟩

/-- C1 witness: the amended characterisation evaluated on the concrete
sequence appearance of `U1` then disappearance of `/p/1`. -/
theorem c1_registry_presence_witness :
    KeysNodup (runReg [Event.found "/p/1" (Except.ok rec1),
        Event.lost "/p/1"]) ∧
      (present (runReg [Event.found "/p/1" (Except.ok rec1),
          Event.lost "/p/1"]) "U1" = true ↔
        SpecPresent [Event.found "/p/1" (Except.ok rec1),
          Event.lost "/p/1"] "U1") := by
  refine c1_registry_presence _ "U1" ?_
  intro j hj p hp r hr r' hr' h1 h2
  have hj2 : j < 2 := by simpa using List.mem_range.mp hj
  interval_cases j
  · simp [lostPathAt] at hp
  · have hr1 : r = rec1 := by
      simpa [runReg, stepEvent, foundServer, addServer, dictInsert]
        using hr
    have hr2 : r' = rec1 := by
      simpa [runReg, stepEvent, foundServer, addServer, dictInsert]
        using hr'
    rw [hr1, hr2]

/-- C2: from the empty registry, an appearance of `U1` at `/p/1` (fetch
succeeding with a record whose Path is `/p/1` and UDN is `U1`) followed by
a disappearance of `/p/1` leaves the registry empty. -/
theorem c2_appear_then_disappear :
    (runReg [Event.found "/p/1" (Except.ok rec1),
      Event.lost "/p/1"]).length = 0 := by
  decide

/-- C3 counterexample: for an identifier absent from the registry,
`dLeynaClient.server` does not return a future at all — the synchronous
registry read raises `KeyError` at the call site. -/
theorem c3_counterexample :
    ¬ ∃ F : Future PeerRecord,
        dLeynaClient.server [] "U1" = Except.ok F := by
  rintro ⟨F, hF⟩
  rw [show dLeynaClient.server [] "U1"
      = Except.error (PyErr.keyError "U1") from rfl] at hF
  cases hF

/-- C3 (amended): for every identifier present in the registry,
`dLeynaClient.server` returns the already-resolved future wrapping the
synchronous registry read, whose `get` yields the record immediately
for every timeout (it never blocks or times out); and
`dLeynaClient.servers` likewise returns an already-resolved future of the
registry values. -/
theorem c3_server_resolved_future (reg : List PeerRecord) (udn : String)
    (r : PeerRecord) (h : lookup reg udn = some r) (t : Option Nat)
    (n : Nat) :
    dLeynaClient.server reg udn = Except.ok (Future.fromvalue r) ∧
      (Future.fromvalue r).getInstr t n = (GetResult.value r, n) ∧
      (dLeynaClient.servers reg).getInstr t n =
        (GetResult.value (serversValues reg), n) := by
  refine ⟨?_, rfl, rfl⟩
  simp [dLeynaClient.server, serversGetItem, h]

/-- C3 witness: the amended statement on the singleton registry holding
`U1`, read with timeout `0`. -/
theorem c3_server_resolved_future_witness :
    dLeynaClient.server [rec1] "U1" = Except.ok (Future.fromvalue rec1) ∧
      (Future.fromvalue rec1).getInstr (some 0) 0 =
        (GetResult.value rec1, 0) ∧
      (dLeynaClient.servers [rec1]).getInstr (some 0) 0 =
        (GetResult.value (serversValues [rec1]), 0) :=
  c3_server_resolved_future [rec1] "U1" rec1 rfl (some 0) 0

/-- C4: `apply` returns the derived future without invoking the transform
(the invocation counter is unchanged at apply time); reading the derived
future of a failed base surfaces the base's error with the transform never
invoked; the transform runs only when the derived future is read, on the
base's value. -/
theorem c4_apply_lazy_and_error (α : Type) (F : Future α)
    (f : Nat → α → α) (t : Option Nat) (n : Nat) :
    F.applyW f n = (F.apply f, n) ∧
      (∀ e m, F.getInstr t n = (GetResult.error e, m) →
        (F.apply f).getInstr t n = (GetResult.error e, m)) ∧
      (∀ v m, F.getInstr t n = (GetResult.value v, m) →
        (F.apply f).getInstr t n = (GetResult.value (f m v), m + 1)) := by
  refine ⟨rfl, ?_, ?_⟩
  · intro e m h
    simp [Future.apply, Future.getInstr, h]
  · intro v m h
    simp [Future.apply, Future.getInstr, h]

/-- C4 witness: reading the future derived from a failed base surfaces
the stored error with no transform invocation. -/
theorem c4_apply_lazy_and_error_witness :
    ((Future.base (FState.failed (PyErr.dbusError "boom")) : Future Nat)
        |>.apply (fun _ v => v + 1)).getInstr none 0 =
      (GetResult.error (PyErr.dbusError "boom"), 0) :=
  (c4_apply_lazy_and_error Nat
    (Future.base (FState.failed (PyErr.dbusError "boom")))
    (fun _ v => v + 1) none 0).2.1 (PyErr.dbusError "boom") 0 rfl

/-- C5: `get(timeout=0)` on a never-resolved future yields the distinct
timeout error (not a stored remote failure, and not an unbounded block),
and a `set` performed afterwards is observed by a fresh `get`. -/
theorem c5_timeout_zero_then_set (α : Type) (v : α) (t : Option Nat)
    (n : Nat) :
    (Future.base FState.pending : Future α).getInstr (some 0) n =
        (GetResult.timeout, n) ∧
      (∀ e : PyErr,
        (GetResult.timeout : GetResult α) ≠ GetResult.error e) ∧
      ((Future.base FState.pending : Future α).set v).getInstr t n =
        (GetResult.value v, n) :=
  ⟨rfl, fun _ h => GetResult.noConfusion h, rfl⟩

/-- C5 witness: the statement at value `7` with timeout `0`. -/
theorem c5_timeout_zero_then_set_witness :
    (Future.base FState.pending : Future Nat).getInstr (some 0) 0 =
        (GetResult.timeout, 0) ∧
      ((Future.base FState.pending : Future Nat).set 7).getInstr (some 0) 0
        = (GetResult.value 7, 0) :=
  ⟨(c5_timeout_zero_then_set Nat 7 (some 0) 0).1,
    (c5_timeout_zero_then_set Nat 7 (some 0) 0).2.2⟩

/-- C6: `fromvalue(V)` is an already-resolved future and its `get` returns
exactly `V` for every timeout. -/
theorem c6_fromvalue_resolved (α : Type) (v : α) (t : Option Nat)
    (n : Nat) :
    Future.fromvalue v = Future.base (FState.resolved v) ∧
      (Future.fromvalue v).getInstr t n = (GetResult.value v, n) :=
  ⟨rfl, rfl⟩

/-- C7: a successful re-appearance of a registered peer overwrites the
record stored under its key, leaves every other peer's record untouched,
and keeps the number of registry entries unchanged. -/
theorem c7_reappearance_overwrites (reg : List PeerRecord)
    (u1 u2 p : String) (r1 r2 obj : PeerRecord) (hne : u1 ≠ u2)
    (h1 : lookup reg u1 = some r1) (h2 : lookup reg u2 = some r2)
    (hobj : obj.udn = u1) :
    lookup (foundServer reg p (Except.ok obj)).1 u1 = some obj ∧
      lookup (foundServer reg p (Except.ok obj)).1 u2 = some r2 ∧
      (foundServer reg p (Except.ok obj)).1.length = reg.length := by
  have hstep : (foundServer reg p (Except.ok obj)).1 = dictInsert reg obj :=
    rfl
  rw [hstep]
  refine ⟨?_, ?_, ?_⟩
  · rw [lookup_dictInsert, if_pos hobj]
  · rw [lookup_dictInsert, if_neg (by rw [hobj]; exact hne)]
    exact h2
  · refine length_dictInsert_of_present ?_
    show (lookup reg obj.udn).isSome = true
    rw [hobj, h1]
    rfl

/-- C7 witness: with `U1` and `U2` registered, re-appearance of `U1` at
`/p/3` overwrites its record, leaves `U2` untouched, count stays 2. -/
theorem c7_reappearance_overwrites_witness :
    lookup (foundServer [rec1, rec2b] "/p/3" (Except.ok rec1b)).1 "U1"
        = some rec1b ∧
      lookup (foundServer [rec1, rec2b] "/p/3" (Except.ok rec1b)).1 "U2"
        = some rec2b ∧
      (foundServer [rec1, rec2b] "/p/3" (Except.ok rec1b)).1.length = 2 :=
  c7_reappearance_overwrites [rec1, rec2b] "U1" "U2" "/p/3" rec1 rec2b
    rec1b (by decide) rfl rfl rfl

/-- C8: an appearance whose property fetch fails logs a warning and leaves
the registry exactly unchanged — same lookups, same entry count. -/
theorem c8_failed_fetch_noop (reg : List PeerRecord) (path : String)
    (e : PyErr) (u : String) :
    foundServer reg path (Except.error e) =
        (reg, [⟨LogLevel.warn,
          "Cannot access media server " ++ path ++ ": " ++ e.render⟩]) ∧
      lookup (foundServer reg path (Except.error e)).1 u = lookup reg u ∧
      (foundServer reg path (Except.error e)).1.length = reg.length :=
  ⟨rfl, rfl, rfl⟩

/-- C9: a disappearance whose path matches no stored record's address
leaves the registry unchanged and logs informationally (and raises no
error: the operation returns normally). -/
theorem c9_lost_unknown_noop (reg : List PeerRecord) (path : String)
    (h : ∀ r ∈ reg, r.path ≠ path) :
    lostServer reg path =
      (reg, [⟨LogLevel.info, "Lost digital media server " ++ path⟩]) := by
  simp only [lostServer, findByPath_eq_none h]

/-- C9 witness: disappearance of the never-seen address `/p/99` with `U1`
registered. -/
theorem c9_lost_unknown_noop_witness :
    lostServer [rec1] "/p/99" =
      ([rec1], [⟨LogLevel.info,
        "Lost digital media server " ++ "/p/99"⟩]) :=
  c9_lost_unknown_noop [rec1] "/p/99" (by decide)

/-- C10: the transform of a derived future is re-invoked on every read
(each read bumps the invocation counter and applies the transform at the
current count), so an impure transform can yield different results on
successive reads. -/
theorem c10_transform_reinvoked (α : Type) (v : α) (f : Nat → α → α)
    (t : Option Nat) (n : Nat) :
    ((Future.base (FState.resolved v)).apply f).getInstr t n =
        (GetResult.value (f n v), n + 1) ∧
      (((Future.base (FState.resolved 0) : Future Nat).apply
          (fun k _ => k)).getInstr t n).1 ≠
        (((Future.base (FState.resolved 0) : Future Nat).apply
          (fun k _ => k)).getInstr t (n + 1)).1 := by
  refine ⟨rfl, ?_⟩
  intro h
  rw [show (((Future.base (FState.resolved 0) : Future Nat).apply
        (fun k _ => k)).getInstr t n).1 = GetResult.value n from rfl,
    show (((Future.base (FState.resolved 0) : Future Nat).apply
        (fun k _ => k)).getInstr t (n + 1)).1 =
      GetResult.value (n + 1) from rfl] at h
  injection h with h'
  omega

/-- C10 witness: one read of a derived future over a resolved base applies
the transform at the current invocation count and bumps the counter. -/
theorem c10_transform_reinvoked_witness :
    ((Future.base (FState.resolved 5) : Future Nat).apply
        (fun k x => k + x)).getInstr (some 0) 3 =
      (GetResult.value 8, 4) :=
  (c10_transform_reinvoked Nat 5 (fun k x => k + x) (some 0) 3).1
